import Mathlib

/-!
Shallow embedding of the cfp-radar collection-reconciliation pipeline
(src/src/collector/agent.py, src/src/collector/sources/confs_tech.py,
src/src/notifier.py) together with proofs about the frozen claims.

Python floats are modelled as rationals, Python dates as (year, month, day)
triples of naturals, Python timestamps as a Nat tick.  Asynchronous adapter
runs are modelled by the list of per-adapter outcomes handed to the
orchestrator, mirroring asyncio.gather with return_exceptions=True.
-/

namespace CfpRadar

/-- Python datetime.date: a (year, month, day) triple.  Ordering on Python
dates is lexicographic on (year, month, day). -/
structure Date where
  year : Nat
  month : Nat
  day : Nat
deriving DecidableEq, Repr

/-- Python date comparison a <= b (lexicographic on year, month, day). -/
def Date.ble (a b : Date) : Bool :=
  decide (a.year < b.year) ||
    (a.year == b.year &&
      (decide (a.month < b.month) || (a.month == b.month && decide (a.day ≤ b.day))))

/-- Gregorian leap-year test, as in Python's datetime module. -/
def isLeapYear (y : Nat) : Bool :=
  y % 4 == 0 && (y % 100 != 0 || y % 400 == 0)

/-- Number of days in a month, as in Python's datetime module. -/
def daysInMonth (y m : Nat) : Nat :=
  if m == 2 then (if isLeapYear y then 29 else 28)
  else if m == 4 || m == 6 || m == 9 || m == 11 then 30
  else 31

/-- Days in all years before year y (Python's datetime._days_before_year). -/
def daysBeforeYear (y : Nat) : Nat :=
  (y - 1) * 365 + (y - 1) / 4 - (y - 1) / 100 + (y - 1) / 400

/-- Days in all months of year y before month m. -/
def daysBeforeMonth (y m : Nat) : Nat :=
  (List.range (m - 1)).foldl (fun acc i => acc + daysInMonth y (i + 1)) 0

/-- Python date.toordinal: day number in the proleptic Gregorian calendar,
with 0001-01-01 as day 1.  Differences of ordinals are Python timedelta.days. -/
def Date.toOrdinal (d : Date) : Nat :=
  daysBeforeYear d.year + daysBeforeMonth d.year d.month + d.day

/-- One decimal digit character. -/
def digitChar (n : Nat) : Char :=
  Char.ofNat ('0'.toNat + n % 10)

/-- Python date.isoformat(): zero-padded "YYYY-MM-DD". -/
def Date.isoformat (d : Date) : String :=
  String.mk [digitChar (d.year / 1000), digitChar (d.year / 100), digitChar (d.year / 10),
    digitChar d.year, '-', digitChar (d.month / 10), digitChar d.month, '-',
    digitChar (d.day / 10), digitChar d.day]

/-- Python date.max (9999-12-31), used as a sort key for missing deadlines. -/
def dateMax : Date := ⟨9999, 12, 31⟩

/-- The canonical Event record (src/src/collector/models.py is not part of the
sources; the field list is taken from the spec's data model and from the Event
constructor calls in the adapters).  relevance_score is a Python float,
modelled as a rational; last_updated is a timestamp, modelled as a Nat tick. -/
structure Event where
  name : String
  city : String
  country : String
  start_date : Date
  end_date : Option Date
  event_type : String
  topics : List String
  cfp_deadline : Option Date
  cfp_url : Option String
  website : String
  description : String
  relevance_score : ℚ
  last_updated : Nat
deriving DecidableEq, Repr

/-- Python truthiness of an optional string: present and non-empty. -/
def optStrTruthy (o : Option String) : Bool :=
  o.getD "" != ""

/-- Completeness score of an event (agent.py _event_completeness): +1 non-empty
description, +2 cfp_deadline present, +2 cfp_url truthy, +1 non-empty website,
+len(topics) when topics is non-empty, +1 end_date present. -/
def _event_completeness (event : Event) : Nat :=
  (if event.description != "" then 1 else 0) +
    (if event.cfp_deadline.isSome then 2 else 0) +
    (if optStrTruthy event.cfp_url then 2 else 0) +
    (if event.website != "" then 1 else 0) +
    (if event.topics.isEmpty then 0 else event.topics.length) +
    (if event.end_date.isSome then 1 else 0)

/- Name normalization (agent.py _normalize_name).  The Python code lowercases,
then applies re.sub(r"\s*(20\d\d|conference|conf|summit|meetup)\s*", " ", ·),
then re.sub(r"[^\w\s]", "", ·), then " ".join(·.split()).  The regex
substitution is modelled as a left-to-right scanner: at each position the
leftmost match of "optional whitespace, one alternative (tried in the regex's
order), optional trailing whitespace" is replaced by a single space. -/

/-- Python regex \s character class (ASCII part). -/
def isSpc (c : Char) : Bool :=
  c == ' ' || c == '\t' || c == '\n' || c == '\r' || c == '\x0b' || c == '\x0c'

/-- Python regex \w character class (ASCII part): alphanumeric or underscore. -/
def isWordChar (c : Char) : Bool :=
  c.isAlphanum || c == '_'

/-- Drop leading whitespace (the greedy \s* of the regex). -/
def skipWs (l : List Char) : List Char :=
  l.dropWhile isSpc

/-- Strip an exact prefix, returning the remainder on success. -/
def stripPfx : List Char → List Char → Option (List Char)
  | [], l => some l
  | _ :: _, [] => none
  | p :: ps, c :: cs => if p == c then stripPfx ps cs else none

/-- Match the regex alternative 20\d\d at the head of the list. -/
def matchYear : List Char → Option (List Char)
  | '2' :: '0' :: a :: b :: rest => if a.isDigit && b.isDigit then some rest else none
  | _ => none

/-- Match one alternative of (20\d\d|conference|conf|summit|meetup) at the head
of the list, in the regex's order of preference. -/
def matchAlt (l : List Char) : Option (List Char) :=
  match matchYear l with
  | some r => some r
  | none =>
    match stripPfx "conference".toList l with
    | some r => some r
    | none =>
      match stripPfx "conf".toList l with
      | some r => some r
      | none =>
        match stripPfx "summit".toList l with
        | some r => some r
        | none => stripPfx "meetup".toList l

/-- The re.sub scan for \s*(alt)\s* -> " ": at each position, if an alternative
matches after the (greedy) leading whitespace, the whole region including the
trailing whitespace is replaced by one space; otherwise the current character
is kept.  Fuel-indexed so that the recursion is structural; fuel = length of
the list always suffices. -/
def substFullAux : Nat → List Char → List Char
  | 0, l => l
  | _ + 1, [] => []
  | n + 1, c :: cs =>
    match matchAlt (skipWs (c :: cs)) with
    | some rest => ' ' :: substFullAux n (skipWs rest)
    | none => c :: substFullAux n cs

/-- The regex substitution pass of _normalize_name. -/
def substFull (l : List Char) : List Char :=
  substFullAux l.length l

/-- A plain-substring substitution scan: each leftmost occurrence of an
alternative is replaced by one space, with no whitespace absorption.  This is
the formulation the amended claim C5 uses; it agrees with substFull up to
whitespace collapsing. -/
def substPlainAux : Nat → List Char → List Char
  | 0, l => l
  | _ + 1, [] => []
  | n + 1, c :: cs =>
    match matchAlt (c :: cs) with
    | some rest => ' ' :: substPlainAux n rest
    | none => c :: substPlainAux n cs

/-- The substitution pass of the amended-claim normalization. -/
def substPlain (l : List Char) : List Char :=
  substPlainAux l.length l

/-- The punctuation strip re.sub(r"[^\w\s]", "", ·): keep word characters and
whitespace, drop everything else. -/
def stripPunct (l : List Char) : List Char :=
  l.filter fun c => isWordChar c || isSpc c

/-- Python str.split() with no separator: maximal non-whitespace runs. -/
def pySplitAux : List Char → List Char → List (List Char)
  | [], acc => if acc.isEmpty then [] else [acc.reverse]
  | c :: t, acc =>
    if isSpc c then
      (if acc.isEmpty then pySplitAux t [] else acc.reverse :: pySplitAux t [])
    else pySplitAux t (c :: acc)

/-- Python str.split() with no separator. -/
def pySplit (l : List Char) : List (List Char) :=
  pySplitAux l []

/-- Python " ".join(s.split()): collapse internal whitespace, trim the ends. -/
def collapseWs (l : List Char) : List Char :=
  List.intercalate [' '] (pySplit l)

/-- Python str.lower (ASCII part). -/
def pyLower (l : List Char) : List Char :=
  l.map Char.toLower

/-- Python str.lower on strings. -/
def pyLowerStr (s : String) : String :=
  String.mk (pyLower s.toList)

/-- agent.py _normalize_name: lowercase, regex-substitute the year/keyword
alternatives, strip punctuation, collapse whitespace. -/
def _normalize_name (name : String) : String :=
  String.mk (collapseWs (stripPunct (substFull (pyLower name.toList))))

/-- The normalization as described by the amended claim C5: lowercase, replace
every leftmost occurrence of a 20xx year or of conference/conf/summit/meetup
(earlier alternatives preferred) by a space wherever it occurs - also inside
longer words - then strip punctuation and collapse whitespace. -/
def normalize_spec_amended (name : String) : String :=
  String.mk (collapseWs (stripPunct (substPlain (pyLower name.toList))))

/-- Whitespace-run normal form: every maximal whitespace run becomes one ' '.
Used only in proofs relating substFull and substPlain. -/
def nf : List Char → List Char
  | [] => []
  | c :: cs =>
    match cs with
    | [] => [if isSpc c then ' ' else c]
    | d :: _ => if isSpc c && isSpc d then nf cs else (if isSpc c then ' ' else c) :: nf cs

/-- Drop one leading blank if present (proof helper for nf). -/
def skipLeadBlank : List Char → List Char
  | [] => []
  | c :: t => if c == ' ' then t else c :: t

/- Deduplication (agent.py deduplicate_events).  The Python code keeps a dict
`seen` from (normalized name, isoformatted start date) to the kept event and a
list `unique` of kept events; an incoming event with a fresh key is appended,
and an incoming event whose key was seen replaces the incumbent (list.remove +
append, dict overwrite) iff its completeness is strictly greater. -/

/-- The dedup key: (normalized name, start_date.isoformat()). -/
abbrev EventKey := String × String

/-- Key of an event as computed in deduplicate_events. -/
def eventKey (e : Event) : EventKey :=
  (_normalize_name e.name, e.start_date.isoformat)

/-- Dict lookup on the association-list model of the Python dict `seen`. -/
def lookupKey : List (EventKey × Event) → EventKey → Option Event
  | [], _ => none
  | (k', e') :: t, k => if k' = k then some e' else lookupKey t k

/-- Dict assignment seen[k] = e: overwrite the entry with key k in place, or
append a fresh entry. -/
def updateKey : List (EventKey × Event) → EventKey → Event → List (EventKey × Event)
  | [], k, e => [(k, e)]
  | (k', e') :: t, k, e => if k' = k then (k, e) :: t else (k', e') :: updateKey t k e

/-- Python list.remove: delete the first element equal to the argument. -/
def eraseFirst : List Event → Event → List Event
  | [], _ => []
  | x :: t, e => if x = e then t else x :: eraseFirst t e

/-- One iteration of the deduplicate_events loop, acting on (seen, unique). -/
def dedupStep (st : List (EventKey × Event) × List Event) (e : Event) :
    List (EventKey × Event) × List Event :=
  match lookupKey st.1 (eventKey e) with
  | none => (st.1 ++ [(eventKey e, e)], st.2 ++ [e])
  | some existing =>
    if _event_completeness e > _event_completeness existing then
      (updateKey st.1 (eventKey e) e, eraseFirst st.2 existing ++ [e])
    else st

/-- The (seen, unique) state after the deduplicate_events loop. -/
def dedupState (events : List Event) : List (EventKey × Event) × List Event :=
  events.foldl dedupStep ([], [])

/-- agent.py deduplicate_events: the `unique` list after the loop. -/
def deduplicate_events (events : List Event) : List Event :=
  (dedupState events).2

/-- The per-key winner as the claims describe it: the first event seen for the
key is kept, and a later event with the same key replaces the kept one iff its
completeness score is strictly greater (ties keep the incumbent). -/
def keyWinner (events : List Event) (k : EventKey) : Option Event :=
  events.foldl
    (fun acc e =>
      if eventKey e = k then
        match acc with
        | none => some e
        | some w => if _event_completeness e > _event_completeness w then some e else some w
      else acc)
    none

/-- Modelled from the spec: EventStore.merge (src/src/collector/models.py is
not part of the sources).  Spec section 4.6: merge loads the existing persisted
collection, combines it with the new events, re-applies the deduplication
discipline of section 4.3 across old and new data, and the result replaces the
persisted collection.  The existing collection is processed first, so kept
events win ties against incoming ones. -/
def EventStore.merge (stored new_events : List Event) : List Event :=
  deduplicate_events (stored ++ new_events)

/-- Bool test that `needle` is a prefix of `hay`. -/
def isPfxOf : List Char → List Char → Bool
  | [], _ => true
  | _ :: _, [] => false
  | p :: ps, c :: cs => p == c && isPfxOf ps cs

/-- Python substring test `needle in hay` on character lists. -/
def containsSub : List Char → List Char → Bool
  | [], needle => needle.isEmpty
  | c :: t, needle => isPfxOf needle (c :: t) || containsSub t needle

/-- Python substring test `needle in hay` on strings. -/
def containsStr (hay needle : String) : Bool :=
  containsSub hay.toList needle.toList

/-- Numeric value of a decimal digit character. -/
def digitVal (c : Char) : Nat :=
  c.toNat - '0'.toNat

/-- Python date.fromisoformat on the "YYYY-MM-DD" shape: parses and validates
the calendar date, returning none where Python raises ValueError. -/
def parseIsoDate (s : String) : Option Date :=
  match s.toList with
  | [y1, y2, y3, y4, '-', m1, m2, '-', d1, d2] =>
    if y1.isDigit && y2.isDigit && y3.isDigit && y4.isDigit &&
        m1.isDigit && m2.isDigit && d1.isDigit && d2.isDigit then
      let y := digitVal y1 * 1000 + digitVal y2 * 100 + digitVal y3 * 10 + digitVal y4
      let m := digitVal m1 * 10 + digitVal m2
      let d := digitVal d1 * 10 + digitVal d2
      if 1 ≤ y && 1 ≤ m && m ≤ 12 && 1 ≤ d && d ≤ daysInMonth y m then
        some ⟨y, m, d⟩
      else none
    else none
  | _ => none

/-- The process-wide configuration lists loaded in config.py (topics,
countries, global_conferences from the YAML file); modelled as an explicit
parameter of the functions that read them. -/
structure CollectorConfig where
  topics : List String
  target_countries : List String
  global_conferences : List String
deriving Repr

/-- One loosely-typed confs.tech JSON record.  Fields read with
conf.get(key, "") are modelled as plain strings with the default folded in;
fields whose presence is tested are modelled as optional strings. -/
structure ConfRecord where
  name : String
  city : String
  country : String
  startDate : Option String
  endDate : Option String
  cfpEndDate : Option String
  cfpUrl : Option String
  twitter : Option String
  url : String
  description : String
deriving DecidableEq, Repr

/-- The topics_found list of confs_tech._parse_conferences at the point where
it is passed to _calculate_relevance: the configured topic keywords occurring
(lowercased) in the event name, followed by the category topic for the devops
and cloud categories. -/
def topicsFoundFor (cfg : CollectorConfig) (category : String) (conf : ConfRecord) :
    List String :=
  let name_lower := pyLowerStr conf.name
  let base := cfg.topics.filter fun t => containsStr name_lower (pyLowerStr t)
  if category = "devops" then base ++ ["devops"]
  else if category = "cloud" then base ++ ["cloud native"]
  else base

/-- confs_tech._calculate_relevance: base 0.3, + min(0.5, len(topics_found) *
0.15), +0.1 for a truthy cfpUrl, +0.1 for a truthy twitter, clamped to 1.0. -/
def _calculate_relevance (conf : ConfRecord) (topics_found : List String) : ℚ :=
  let score : ℚ := 3/10
  let score := score + min (1/2) ((topics_found.length : ℚ) * (15/100))
  let score := score + (if optStrTruthy conf.cfpUrl then 1/10 else 0)
  let score := score + (if optStrTruthy conf.twitter then 1/10 else 0)
  min 1 score

/-- The body of the confs_tech._parse_conferences loop for one record:
location filter, topic filter for the general category, start-date parse
(skipping unparseable records), best-effort optional fields, Event
construction.  list(set(topics_found)) is modelled as eraseDups (Python's set
iteration order is unspecified).  now is the datetime.now() tick. -/
def parseOneConf (cfg : CollectorConfig) (now : Nat) (category : String)
    (conf : ConfRecord) : Option Event :=
  let name_lower := pyLowerStr conf.name
  let country_match := (cfg.target_countries.map pyLowerStr).contains (pyLowerStr conf.country)
  let global_conf_match :=
    (cfg.global_conferences.map pyLowerStr).any fun gc => containsStr name_lower gc
  if !(country_match || global_conf_match) then none
  else
    let topics_found := topicsFoundFor cfg category conf
    if topics_found.isEmpty && category == "general" then none
    else
      match conf.startDate with
      | none => none
      | some sd_str =>
        match parseIsoDate sd_str with
        | none => none
        | some start_date =>
          let end_date :=
            if optStrTruthy conf.endDate then parseIsoDate (conf.endDate.getD "") else none
          let cfp_deadline :=
            if optStrTruthy conf.cfpEndDate then parseIsoDate (conf.cfpEndDate.getD "") else none
          let cfp_url :=
            if optStrTruthy conf.cfpUrl then some (conf.cfpUrl.getD "") else none
          some
            { name := conf.name
              city := conf.city
              country := conf.country
              start_date := start_date
              end_date := end_date
              event_type := "conference"
              topics := topics_found.eraseDups
              cfp_deadline := cfp_deadline
              cfp_url := cfp_url
              website := conf.url
              description := conf.description
              relevance_score := _calculate_relevance conf topics_found
              last_updated := now }

/-- confs_tech._parse_conferences over a whole category file. -/
def _parse_conferences (cfg : CollectorConfig) (now : Nat) (data : List ConfRecord)
    (category : String) : List Event :=
  data.filterMap (parseOneConf cfg now category)

/-- agent.py calculate_topic_relevance: 0.3 when no topics are attached, else
base 0.3 + min(0.5, 0.1 * number of configured keywords occurring in some
attached topic) + 0.15 for a CFP deadline that is today or later + 0.1 when
the name contains a pipeline/CI-CD keyword, clamped to 1.0. -/
def calculate_topic_relevance (topics_cfg : List String) (today : Date) (event : Event) : ℚ :=
  if event.topics.isEmpty then 3/10
  else
    let topic_lower := event.topics.map pyLowerStr
    let matchCount :=
      (topics_cfg.filter fun t => topic_lower.any fun topic => containsStr topic (pyLowerStr t)).length
    let score : ℚ := 3/10
    let score := score + min (1/2) ((matchCount : ℚ) * (1/10))
    let score := score +
      (match event.cfp_deadline with
        | some dl => if Date.ble today dl then 15/100 else 0
        | none => 0)
    let name_lower := pyLowerStr event.name
    let score := score +
      (if ["tekton", "ci/cd", "cicd", "pipeline"].any (fun kw => containsStr name_lower kw)
        then 1/10 else 0)
    min 1 score

/-- The dict returned by web_search.extract_cfp_details, as read by
enrich_event_cfp: optional deadline string, optional CFP URL, topic list
(details.get("topics") with [] standing for an absent or empty value). -/
structure CfpDetails where
  cfp_deadline : Option String
  cfp_url : Option String
  topics : List String
deriving DecidableEq, Repr

/-- agent.py enrich_event_cfp.  The external lookup result is passed in as
`details` and the datetime.now() tick as `now`; the guard `if not
event.website or event.cfp_deadline: return event` short-circuits before the
lookup, so in that case the result does not depend on either. -/
def enrich_event_cfp (details : CfpDetails) (now : Nat) (event : Event) : Event :=
  if event.website == "" || event.cfp_deadline.isSome then event
  else
    let event1 :=
      if optStrTruthy details.cfp_deadline then
        match parseIsoDate (details.cfp_deadline.getD "") with
        | some d => { event with cfp_deadline := some d }
        | none => event
      else event
    let event2 :=
      if optStrTruthy details.cfp_url then { event1 with cfp_url := details.cfp_url } else event1
    let event3 :=
      if !details.topics.isEmpty then
        { event2 with topics := (event2.topics ++ details.topics).eraseDups }
      else event2
    { event3 with last_updated := now }

/-- The aggregation loop of collect_all_events over the asyncio.gather results
(return_exceptions=True): successful adapter results are concatenated in
order, exceptions are logged and contribute nothing. -/
def gather_results (results : List (Except String (List Event))) : List Event :=
  results.foldl
    (fun acc r =>
      match r with
      | Except.ok event_list => acc ++ event_list
      | Except.error _ => acc)
    []

/-- date.today().replace(day=1): the first day of the current month. -/
def firstOfMonth (today : Date) : Date :=
  { today with day := 1 }

/-- agent.py collect_all_events after the gather: deduplicate, drop events
starting before the first day of the current month, sort ascending by start
date, merge into the store.  Returns (returned events, new store contents). -/
def collect_all_events (results : List (Except String (List Event))) (today : Date)
    (stored : List Event) : List Event × List Event :=
  let all_events := gather_results results
  let unique_events := deduplicate_events all_events
  let cutoff := firstOfMonth today
  let future_events := unique_events.filter fun e => Date.ble cutoff e.start_date
  let sorted_events := future_events.mergeSort fun a b => Date.ble a.start_date b.start_date
  (sorted_events, EventStore.merge stored sorted_events)

/-- notifier.py check_upcoming_cfps on the loaded store contents: keep events
with a CFP deadline at most `days` days away and not in the past
(0 <= (deadline - today).days <= days), sorted ascending by deadline (missing
deadlines, impossible after the filter, would sort as date.max). -/
def check_upcoming_cfps (events : List Event) (today : Date) (days : Int) : List Event :=
  let upcoming := events.filter fun e =>
    match e.cfp_deadline with
    | none => false
    | some dl =>
      decide (0 ≤ (dl.toOrdinal : Int) - (today.toOrdinal : Int)) &&
        decide ((dl.toOrdinal : Int) - (today.toOrdinal : Int) ≤ (days : Int))
  upcoming.mergeSort fun a b => Date.ble (a.cfp_deadline.getD dateMax) (b.cfp_deadline.getD dateMax)

/-- The topic count of the amended claim C6: keywords matched in the name plus
one for the category topic appended for the devops and cloud categories
(counted with multiplicity). -/
def amendedTopicCount (cfg : CollectorConfig) (category : String) (conf : ConfRecord) : Nat :=
  (cfg.topics.filter fun t => containsStr (pyLowerStr conf.name) (pyLowerStr t)).length +
    (if category = "devops" ∨ category = "cloud" then 1 else 0)

/-- The relevance formula exactly as claim C6 states it: the topic-match term
counts only keywords found as substrings of the event name. -/
def claimedRelevanceC6 (cfg : CollectorConfig) (conf : ConfRecord) : ℚ :=
  min 1 (3/10 +
    min (1/2)
      (((cfg.topics.filter fun t => containsStr (pyLowerStr conf.name) (pyLowerStr t)).length : ℚ) *
        (15/100)) +
    (if optStrTruthy conf.cfpUrl then 1/10 else 0) +
    (if optStrTruthy conf.twitter then 1/10 else 0))

/-- The relevance formula of the amended claim C6, over amendedTopicCount. -/
def amendedRelevanceC6 (cfg : CollectorConfig) (category : String) (conf : ConfRecord) : ℚ :=
  min 1 (3/10 +
    min (1/2) ((amendedTopicCount cfg category conf : ℚ) * (15/100)) +
    (if optStrTruthy conf.cfpUrl then 1/10 else 0) +
    (if optStrTruthy conf.twitter then 1/10 else 0))

/-- Sample run date for the future-cutoff example of claim C4. -/
def demoToday : Date := ⟨2025, 6, 15⟩

/-- Sample event starting 2025-05-01 (excluded by the cutoff on 2025-06-15). -/
def eventMay : Event :=
  { name := "May Event", city := "Berlin", country := "Germany",
    start_date := ⟨2025, 5, 1⟩, end_date := none, event_type := "conference",
    topics := [], cfp_deadline := none, cfp_url := none, website := "",
    description := "", relevance_score := 0, last_updated := 0 }

/-- Sample event starting 2025-06-01 (included by the cutoff on 2025-06-15). -/
def eventJun : Event :=
  { eventMay with name := "June Event", start_date := ⟨2025, 6, 1⟩ }

/-- One successful adapter batch containing the two sample events. -/
def demoResults : List (Except String (List Event)) :=
  [Except.ok [eventMay, eventJun]]

/-- Configuration used in the concrete C6 and C10 inputs. -/
def cfgC6 : CollectorConfig :=
  { topics := ["kubernetes"], target_countries := ["Germany"], global_conferences := [] }

/-- A devops-category record whose name matches no configured keyword. -/
def confC6 : ConfRecord :=
  { name := "Plain Days", city := "Bonn", country := "Germany",
    startDate := some "2025-09-01", endDate := none, cfpEndDate := none,
    cfpUrl := none, twitter := none, url := "", description := "" }

/-- A general-category record whose name matches a configured keyword and
whose country matches case-insensitively. -/
def confW : ConfRecord :=
  { name := "Kubernetes Days", city := "Koeln", country := "germany",
    startDate := some "2025-10-02", endDate := none, cfpEndDate := none,
    cfpUrl := none, twitter := none, url := "", description := "" }

/-- An event that already carries a CFP deadline (enrichment must not touch it). -/
def eventEnriched : Event :=
  { eventMay with
    name := "Enriched"
    cfp_deadline := some ⟨2025, 4, 1⟩
    website := "https://ex.org" }

/-- A non-trivial lookup result fed to enrich_event_cfp in the C8 witness. -/
def detailsW : CfpDetails :=
  { cfp_deadline := some "2025-03-01", cfp_url := some "https://cfp.ex.org",
    topics := ["devops"] }

/-- The event parsed from confW in the general category (C10 witness). -/
def eventW : Event :=
  (parseOneConf cfgC6 0 "general" confW).getD eventMay

/-- The event parsed from confC6 in the devops category (C6 input). -/
def evC6 : Event :=
  (parseOneConf cfgC6 0 "devops" confC6).getD eventMay

/-! Theorems.  Helper lemmas come first, then one theorem per claim (with a
witness theorem where the claim theorem has a hypothesis). -/

theorem clamp01 (x : ℚ) (hx : 0 ≤ x) : 0 ≤ min 1 x ∧ min 1 x ≤ 1 :=
  ⟨le_min (by norm_num) hx, min_le_left _ _⟩

/-- C7: for every event and configuration, both relevance-scoring variants
(agent.calculate_topic_relevance and confs_tech._calculate_relevance) return a
value in the closed interval [0, 1]. -/
theorem C7_relevance_scores_in_unit_interval (topics_cfg : List String) (today : Date)
    (event : Event) (conf : ConfRecord) (topics_found : List String) :
    (0 ≤ calculate_topic_relevance topics_cfg today event ∧
      calculate_topic_relevance topics_cfg today event ≤ 1) ∧
    (0 ≤ _calculate_relevance conf topics_found ∧
      _calculate_relevance conf topics_found ≤ 1) := by
  constructor
  · unfold calculate_topic_relevance
    by_cases h : event.topics.isEmpty
    · simp only [h, if_true]
      norm_num
    · simp only [h, if_false, Bool.false_eq_true]
      apply clamp01
      have h1 : (0 : ℚ) ≤ min (1/2)
          ((((topics_cfg.filter fun t =>
            (event.topics.map pyLowerStr).any fun topic =>
              containsStr topic (pyLowerStr t)).length : ℚ)) * (1/10)) :=
        le_min (by norm_num) (by positivity)
      have h2 : (0 : ℚ) ≤
          (match event.cfp_deadline with
            | some dl => if Date.ble today dl then (15/100 : ℚ) else 0
            | none => 0) := by
        rcases event.cfp_deadline with _ | dl
        · norm_num
        · dsimp only
          split <;> norm_num
      have h3 : (0 : ℚ) ≤
          (if ["tekton", "ci/cd", "cicd", "pipeline"].any
              (fun kw => containsStr (pyLowerStr event.name) kw)
            then (1/10 : ℚ) else 0) := by
        split <;> norm_num
      have hb : (0 : ℚ) ≤ 3/10 := by norm_num
      linarith
  · unfold _calculate_relevance
    apply clamp01
    have h1 : (0 : ℚ) ≤ min (1/2) ((topics_found.length : ℚ) * (15/100)) :=
      le_min (by norm_num) (by positivity)
    have h2 : (0 : ℚ) ≤ (if optStrTruthy conf.cfpUrl then (1/10 : ℚ) else 0) := by
      split <;> norm_num
    have h3 : (0 : ℚ) ≤ (if optStrTruthy conf.twitter then (1/10 : ℚ) else 0) := by
      split <;> norm_num
    linarith

/-- C8: enrichment is a no-op for an event that already has a CFP deadline or
has no website: every field, including last_updated, is returned unchanged,
and the result does not depend on the external lookup result. -/
theorem C8_enrich_noop_when_done_or_siteless (details : CfpDetails) (now : Nat)
    (event : Event) (h : event.cfp_deadline.isSome = true ∨ event.website = "") :
    enrich_event_cfp details now event = event := by
  unfold enrich_event_cfp
  have hc : (event.website == "" || event.cfp_deadline.isSome) = true := by
    rcases h with h | h
    · simp [h]
    · simp [h]
  simp [hc]

/-- Witness for C8 at a concrete event carrying a CFP deadline and a website,
with a lookup result that would otherwise change three fields. -/
theorem C8_enrich_noop_witness :
    (eventEnriched.cfp_deadline.isSome = true ∨ eventEnriched.website = "") ∧
      enrich_event_cfp detailsW 42 eventEnriched = eventEnriched :=
  ⟨by decide, C8_enrich_noop_when_done_or_siteless detailsW 42 eventEnriched (by decide)⟩

theorem gather_foldl_acc (rs : List (Except String (List Event))) (acc : List Event) :
    rs.foldl
      (fun acc r =>
        match r with
        | Except.ok event_list => acc ++ event_list
        | Except.error _ => acc)
      acc = acc ++ gather_results rs := by
  induction rs generalizing acc with
  | nil => simp [gather_results]
  | cons r rs ih =>
    cases r with
    | ok l =>
      show List.foldl _ (acc ++ l) rs = _
      rw [ih]
      have : gather_results (Except.ok l :: rs) = l ++ gather_results rs := by
        show List.foldl _ ([] ++ l) rs = _
        rw [ih]
        simp
      rw [this, List.append_assoc]
    | error msg =>
      show List.foldl _ acc rs = _
      rw [ih]
      have : gather_results (Except.error msg :: rs) = gather_results rs := by
        show List.foldl _ ([] : List Event) rs = _
        rfl
      rw [this]

theorem gather_results_cons (r : Except String (List Event))
    (rs : List (Except String (List Event))) :
    gather_results (r :: rs) =
      (match r with | Except.ok l => l | Except.error _ => []) ++ gather_results rs := by
  cases r with
  | ok l =>
    show List.foldl _ ([] ++ l) rs = _
    rw [gather_foldl_acc]
    simp
  | error msg =>
    show List.foldl _ ([] : List Event) rs = _
    rw [show List.foldl _ ([] : List Event) rs = gather_results rs from rfl]
    simp

theorem gather_results_eq_flatten (rs : List (Except String (List Event))) :
    gather_results rs = (rs.filterMap Except.toOption).flatten := by
  induction rs with
  | nil => rfl
  | cons r rs ih =>
    cases r with
    | ok l => simp [gather_results_cons, ih, Except.toOption]
    | error msg => simp [gather_results_cons, ih, Except.toOption]

theorem gather_results_filter_ok (rs : List (Except String (List Event))) :
    gather_results (rs.filter fun r => r.isOk) = gather_results rs := by
  induction rs with
  | nil => rfl
  | cons r rs ih =>
    cases r with
    | ok l =>
      simp only [Except.isOk, Except.toBool] at ih ⊢
      simp [List.filter_cons, gather_results_cons, ih]
    | error msg =>
      simp only [Except.isOk, Except.toBool] at ih ⊢
      simp [List.filter_cons, gather_results_cons, ih]

/-- C3: adapter failures are contained.  Replacing the result list by its
successful entries changes nothing: the pipeline output and the merged store
are exactly those obtained from the union (in order) of the succeeding
adapters' records, and the failing entries contribute nothing.  The
asyncio.gather(return_exceptions=True) join is modelled by the list of
per-adapter outcomes, so no failure cancels a sibling or the run. -/
theorem C3_partial_source_resilience (results : List (Except String (List Event)))
    (today : Date) (stored : List Event) :
    collect_all_events results today stored =
      collect_all_events (results.filter fun r => r.isOk) today stored ∧
    gather_results results = (results.filterMap Except.toOption).flatten := by
  refine ⟨?_, gather_results_eq_flatten results⟩
  unfold collect_all_events
  rw [gather_results_filter_ok]

theorem mem_collect_iff (results : List (Except String (List Event))) (today : Date)
    (stored : List Event) (e : Event) :
    e ∈ (collect_all_events results today stored).1 ↔
      e ∈ deduplicate_events (gather_results results) ∧
        Date.ble (firstOfMonth today) e.start_date = true := by
  unfold collect_all_events
  exact (List.mergeSort_perm _ _).mem_iff.trans List.mem_filter

/-- C4: the future cutoff of collect_all_events keeps exactly the deduplicated
events starting on or after the first day of the current month; concretely, on
a run dated 2025-06-15 an event starting 2025-05-01 is dropped and one
starting 2025-06-01 is kept. -/
theorem C4_future_cutoff_filter :
    (∀ (results : List (Except String (List Event))) (today : Date) (stored : List Event)
        (e : Event),
      e ∈ (collect_all_events results today stored).1 ↔
        e ∈ deduplicate_events (gather_results results) ∧
          Date.ble (firstOfMonth today) e.start_date = true) ∧
    eventMay ∉ (collect_all_events demoResults demoToday []).1 ∧
    eventJun ∈ (collect_all_events demoResults demoToday []).1 := by
  refine ⟨mem_collect_iff, ?_, ?_⟩
  · rw [mem_collect_iff]
    decide
  · rw [mem_collect_iff]
    decide

theorem Date.ble_trans (a b c : Date) (h1 : Date.ble a b = true) (h2 : Date.ble b c = true) :
    Date.ble a c = true := by
  simp only [Date.ble, Bool.or_eq_true, Bool.and_eq_true, decide_eq_true_eq,
    beq_iff_eq] at *
  omega

theorem Date.ble_total (a b : Date) : (Date.ble a b || Date.ble b a) = true := by
  simp only [Date.ble, Bool.or_eq_true, Bool.and_eq_true, decide_eq_true_eq, beq_iff_eq]
  omega

/-- C9: check_upcoming_cfps returns exactly the stored events whose CFP
deadline lies within [today, today + days] (in day ordinals, i.e.
0 <= (deadline - today).days <= days; events without a deadline never appear),
as a permutation fact, and the returned list is sorted ascending by CFP
deadline. -/
theorem C9_check_upcoming_cfps_window_sorted (events : List Event) (today : Date)
    (days : Int) :
    List.Perm (check_upcoming_cfps events today days)
      (events.filter fun e =>
        match e.cfp_deadline with
        | none => false
        | some dl =>
          decide ((today.toOrdinal : Int) ≤ (dl.toOrdinal : Int)) &&
            decide ((dl.toOrdinal : Int) ≤ (today.toOrdinal : Int) + days)) ∧
    List.Pairwise
      (fun a b =>
        Date.ble (a.cfp_deadline.getD dateMax) (b.cfp_deadline.getD dateMax) = true)
      (check_upcoming_cfps events today days) := by
  constructor
  · unfold check_upcoming_cfps
    refine (List.mergeSort_perm _ _).trans ?_
    have : (fun e : Event =>
        match e.cfp_deadline with
        | none => false
        | some dl =>
          decide (0 ≤ (dl.toOrdinal : Int) - (today.toOrdinal : Int)) &&
            decide ((dl.toOrdinal : Int) - (today.toOrdinal : Int) ≤ (days : Int))) =
        (fun e : Event =>
        match e.cfp_deadline with
        | none => false
        | some dl =>
          decide ((today.toOrdinal : Int) ≤ (dl.toOrdinal : Int)) &&
            decide ((dl.toOrdinal : Int) ≤ (today.toOrdinal : Int) + days)) := by
      funext e
      rcases e.cfp_deadline with _ | dl
      · rfl
      · dsimp only
        rw [decide_eq_decide.mpr (by omega : (0 ≤ (dl.toOrdinal : Int) - (today.toOrdinal : Int)) ↔ ((today.toOrdinal : Int) ≤ (dl.toOrdinal : Int)))]
        rw [decide_eq_decide.mpr (by omega : ((dl.toOrdinal : Int) - (today.toOrdinal : Int) ≤ (days : Int)) ↔ ((dl.toOrdinal : Int) ≤ (today.toOrdinal : Int) + days))]
    rw [this]
  · unfold check_upcoming_cfps
    refine List.sorted_mergeSort ?_ ?_ _
    · exact fun a b c hab hbc => Date.ble_trans _ _ _ hab hbc
    · exact fun a b => Date.ble_total _ _

theorem bool_eq_true_of_not_not (b : Bool) (h : ¬((!b) = true)) : b = true := by
  cases b
  · exact absurd rfl h
  · rfl

theorem bool_eq_false_of_not (b : Bool) (h : ¬(b = true)) : b = false := by
  cases b
  · rfl
  · exact absurd rfl h

theorem any_of_filter_ne_nil {α : Type} (p : α → Bool) (l : List α)
    (h : (l.filter p).isEmpty = false) : l.any p = true := by
  rw [List.any_eq_true]
  cases hf : l.filter p with
  | nil => rw [hf] at h; simp at h
  | cons b t =>
    have hb : b ∈ l.filter p := by rw [hf]; exact List.mem_cons_self _ _
    rw [List.mem_filter] at hb
    exact ⟨b, hb.1, hb.2⟩

theorem parseOneConf_some (cfg : CollectorConfig) (now : Nat) (category : String)
    (conf : ConfRecord) (e : Event) (h : parseOneConf cfg now category conf = some e) :
    e.name = conf.name ∧ e.country = conf.country ∧
    e.relevance_score = _calculate_relevance conf (topicsFoundFor cfg category conf) ∧
    ((cfg.target_countries.map pyLowerStr).contains (pyLowerStr conf.country) ||
      (cfg.global_conferences.map pyLowerStr).any
        (fun gc => containsStr (pyLowerStr conf.name) gc)) = true ∧
    ((topicsFoundFor cfg category conf).isEmpty && category == "general") = false := by
  simp only [parseOneConf] at h
  split at h
  · exact absurd h (by simp)
  · rename_i hcg
    split at h
    · exact absurd h (by simp)
    · rename_i htop
      split at h
      · exact absurd h (by simp)
      · rename_i sd_str hsd
        split at h
        · exact absurd h (by simp)
        · rename_i d hd
          rw [Option.some.injEq] at h
          subst h
          refine ⟨rfl, rfl, rfl, ?_, ?_⟩
          · exact bool_eq_true_of_not_not _ hcg
          · exact bool_eq_false_of_not _ htop

/-- C10: every event produced by the confs.tech parser has its country in the
configured target-country list (case-insensitively) or a name containing one
of the configured global-conference strings (case-insensitively), and an event
surviving from the "general" category has at least one configured topic
keyword occurring in its name. -/
theorem C10_parse_location_and_topic_filter (cfg : CollectorConfig) (now : Nat)
    (category : String) (conf : ConfRecord) (e : Event)
    (h : parseOneConf cfg now category conf = some e) :
    ((cfg.target_countries.map pyLowerStr).contains (pyLowerStr e.country) = true ∨
      (cfg.global_conferences.map pyLowerStr).any
        (fun gc => containsStr (pyLowerStr e.name) gc) = true) ∧
    (category = "general" →
      cfg.topics.any (fun t => containsStr (pyLowerStr e.name) (pyLowerStr t)) = true) := by
  obtain ⟨hname, hcountry, _, hmatch, htop⟩ := parseOneConf_some cfg now category conf e h
  constructor
  · rw [hname, hcountry]
    rwa [Bool.or_eq_true] at hmatch
  · intro hcat
    subst hcat
    have hne : (topicsFoundFor cfg "general" conf).isEmpty = false := by
      simpa using htop
    have hbase : topicsFoundFor cfg "general" conf =
        cfg.topics.filter fun t => containsStr (pyLowerStr conf.name) (pyLowerStr t) := by
      simp only [topicsFoundFor]
      rw [if_neg (by decide), if_neg (by decide)]
    rw [hbase] at hne
    rw [hname]
    exact any_of_filter_ne_nil _ _ hne

/-- Witness for C10: a concrete general-category record with a matching
country and a keyword match in the name is parsed, and the conclusions hold
for the parsed event. -/
theorem C10_parse_filter_witness :
    (((cfgC6.target_countries.map pyLowerStr).contains (pyLowerStr eventW.country) = true ∨
      (cfgC6.global_conferences.map pyLowerStr).any
        (fun gc => containsStr (pyLowerStr eventW.name) gc) = true) ∧
    ("general" = "general" →
      cfgC6.topics.any (fun t => containsStr (pyLowerStr eventW.name) (pyLowerStr t)) = true)) :=
  C10_parse_location_and_topic_filter cfgC6 0 "general" confW eventW (by rfl)

theorem topicsFoundFor_length (cfg : CollectorConfig) (category : String)
    (conf : ConfRecord) :
    (topicsFoundFor cfg category conf).length = amendedTopicCount cfg category conf := by
  by_cases h1 : category = "devops"
  · simp [topicsFoundFor, amendedTopicCount, h1]
  · by_cases h2 : category = "cloud"
    · simp [topicsFoundFor, amendedTopicCount, h1, h2]
    · simp [topicsFoundFor, amendedTopicCount, h1, h2]

/-- Counterexample for C6 as stated: a devops-category record whose name
matches no configured keyword gets relevance 0.45 (the appended category topic
is counted), while the claimed formula - counting only keywords found in the
name - yields 0.3. -/
theorem C6_counterexample_category_topic_counted :
    ((parseOneConf cfgC6 0 "devops" confC6).map fun e => e.relevance_score) =
      some (9/20 : ℚ) ∧
    claimedRelevanceC6 cfgC6 confC6 = 3/10 ∧
    (9/20 : ℚ) ≠ 3/10 := by
  refine ⟨?_, ?_, by norm_num⟩
  · have h1 : parseOneConf cfgC6 0 "devops" confC6 = some evC6 := rfl
    have h2 : evC6.relevance_score = _calculate_relevance confC6 ["devops"] := rfl
    rw [h1]
    show some evC6.relevance_score = some (9/20 : ℚ)
    rw [h2]
    simp only [_calculate_relevance, optStrTruthy, confC6]
    norm_num [min_def]
  · have h3 : (cfgC6.topics.filter fun t =>
        containsStr (pyLowerStr confC6.name) (pyLowerStr t)).length = 0 := by decide
    have hu : optStrTruthy confC6.cfpUrl = false := by decide
    have ht : optStrTruthy confC6.twitter = false := by decide
    simp only [claimedRelevanceC6]
    rw [h3, hu, ht]
    norm_num [min_def]

/-- C6 amended: the relevance score of every parsed confs.tech event equals
base 0.3 plus min(0.5, 0.15 x n) plus 0.1 for a CFP URL plus 0.1 for a twitter
handle, clamped to 1.0, where n counts the configured keywords occurring in
the name PLUS the category topic appended for the devops and cloud categories
(with multiplicity). -/
theorem C6_amended_structured_relevance (cfg : CollectorConfig) (now : Nat)
    (category : String) (conf : ConfRecord) (e : Event)
    (h : parseOneConf cfg now category conf = some e) :
    e.relevance_score = amendedRelevanceC6 cfg category conf := by
  obtain ⟨_, _, hrel, _, _⟩ := parseOneConf_some cfg now category conf e h
  rw [hrel]
  simp only [_calculate_relevance, amendedRelevanceC6]
  rw [topicsFoundFor_length]

/-- Witness for the amended C6 at the concrete devops-category record. -/
theorem C6_amended_relevance_witness :
    evC6.relevance_score = amendedRelevanceC6 cfgC6 "devops" confC6 :=
  C6_amended_structured_relevance cfgC6 0 "devops" confC6 evC6 (by rfl)

theorem keyWinner_append (l : List Event) (e : Event) (k : EventKey) :
    keyWinner (l ++ [e]) k =
      if eventKey e = k then
        match keyWinner l k with
        | none => some e
        | some w => if _event_completeness e > _event_completeness w then some e else some w
      else keyWinner l k := by
  unfold keyWinner
  rw [List.foldl_append, List.foldl_cons, List.foldl_nil]

theorem dedupState_append (l : List Event) (e : Event) :
    dedupState (l ++ [e]) = dedupStep (dedupState l) e := by
  unfold dedupState
  rw [List.foldl_append, List.foldl_cons, List.foldl_nil]

theorem dedupStep_none (st : List (EventKey × Event) × List Event) (e : Event)
    (h : lookupKey st.1 (eventKey e) = none) :
    dedupStep st e = (st.1 ++ [(eventKey e, e)], st.2 ++ [e]) := by
  unfold dedupStep
  rw [h]

theorem dedupStep_some_gt (st : List (EventKey × Event) × List Event) (e ex : Event)
    (h : lookupKey st.1 (eventKey e) = some ex)
    (hc : _event_completeness e > _event_completeness ex) :
    dedupStep st e = (updateKey st.1 (eventKey e) e, eraseFirst st.2 ex ++ [e]) := by
  unfold dedupStep
  rw [h]
  dsimp only
  rw [if_pos hc]

theorem dedupStep_some_le (st : List (EventKey × Event) × List Event) (e ex : Event)
    (h : lookupKey st.1 (eventKey e) = some ex)
    (hc : ¬ _event_completeness e > _event_completeness ex) :
    dedupStep st e = st := by
  unfold dedupStep
  rw [h]
  dsimp only
  rw [if_neg hc]

theorem lookupKey_append (S T : List (EventKey × Event)) (k : EventKey) :
    lookupKey (S ++ T) k =
      match lookupKey S k with
      | some v => some v
      | none => lookupKey T k := by
  induction S with
  | nil => rfl
  | cons p t ih =>
    obtain ⟨k', e'⟩ := p
    by_cases hk : k' = k
    · simp [lookupKey, hk]
    · simp only [List.cons_append, lookupKey, if_neg hk]
      exact ih

theorem lookupKey_mem (S : List (EventKey × Event)) (k : EventKey) (v : Event)
    (h : lookupKey S k = some v) : (k, v) ∈ S := by
  induction S with
  | nil => exact absurd h (by simp [lookupKey])
  | cons p t ih =>
    obtain ⟨k', e'⟩ := p
    by_cases hk : k' = k
    · subst hk
      rw [lookupKey, if_pos rfl, Option.some.injEq] at h
      subst h
      exact List.mem_cons_self _ _
    · rw [lookupKey, if_neg hk] at h
      exact List.mem_cons_of_mem _ (ih h)

theorem updateKey_mem (S : List (EventKey × Event)) (k : EventKey) (e : Event)
    (p : EventKey × Event) (h : p ∈ updateKey S k e) : p = (k, e) ∨ p ∈ S := by
  induction S with
  | nil =>
    rw [updateKey] at h
    simp at h
    exact Or.inl h
  | cons q t ih =>
    obtain ⟨k', e'⟩ := q
    by_cases hk : k' = k
    · rw [updateKey, if_pos hk] at h
      rcases List.mem_cons.mp h with h | h
      · exact Or.inl h
      · exact Or.inr (List.mem_cons_of_mem _ h)
    · rw [updateKey, if_neg hk] at h
      rcases List.mem_cons.mp h with h | h
      · exact Or.inr (h ▸ List.mem_cons_self _ _)
      · rcases ih h with h | h
        · exact Or.inl h
        · exact Or.inr (List.mem_cons_of_mem _ h)

theorem lookupKey_update (S : List (EventKey × Event)) (k : EventKey) (e : Event)
    (k' : EventKey) (h : (lookupKey S k).isSome = true) :
    lookupKey (updateKey S k e) k' = if k = k' then some e else lookupKey S k' := by
  induction S with
  | nil => simp [lookupKey] at h
  | cons q t ih =>
    obtain ⟨k0, e0⟩ := q
    by_cases hk0 : k0 = k
    · subst hk0
      rw [updateKey, if_pos rfl]
      by_cases hk' : k0 = k'
      · subst hk'
        simp [lookupKey]
      · rw [lookupKey, if_neg hk', lookupKey, if_neg hk', if_neg hk']
    · rw [updateKey, if_neg hk0]
      have ht : (lookupKey t k).isSome = true := by
        rwa [lookupKey, if_neg hk0] at h
      by_cases hk' : k0 = k'
      · subst hk'
        rw [lookupKey, if_pos rfl, lookupKey, if_pos rfl]
        rw [if_neg (fun hkk => hk0 hkk.symm)]
      · rw [lookupKey, if_neg hk', lookupKey, if_neg hk']
        exact ih ht

theorem filter_eraseFirst_of_pred_false (U : List Event) (x : Event) (p : Event → Bool)
    (hx : p x = false) : (eraseFirst U x).filter p = U.filter p := by
  induction U with
  | nil => rfl
  | cons u t ih =>
    by_cases hu : u = x
    · subst hu
      rw [eraseFirst, if_pos rfl, List.filter_cons, hx]
      simp
    · rw [eraseFirst, if_neg hu, List.filter_cons, List.filter_cons, ih]

theorem filter_eraseFirst_of_singleton (U : List Event) (x : Event) (p : Event → Bool)
    (h : U.filter p = [x]) : (eraseFirst U x).filter p = [] := by
  induction U with
  | nil => simp at h
  | cons u t ih =>
    have hpx : p x = true := by
      have hx : x ∈ List.filter p (u :: t) := by
        rw [h]
        exact List.mem_cons_self _ _
      exact (List.mem_filter.mp hx).2
    cases hpu : p u with
    | false =>
      have hut : u ≠ x := fun he => by rw [he, hpx] at hpu; cases hpu
      have h' : List.filter p t = [x] := by
        rw [List.filter_cons, hpu] at h
        simpa using h
      rw [eraseFirst, if_neg hut, List.filter_cons, hpu]
      simpa using ih h'
    | true =>
      rw [List.filter_cons, hpu, if_pos rfl, List.cons.injEq] at h
      obtain ⟨hux, hft⟩ := h
      rw [eraseFirst, if_pos hux, hft]

theorem dedup_invariant (l : List Event) :
    (∀ p ∈ (dedupState l).1, eventKey p.2 = p.1) ∧
    (∀ k, lookupKey (dedupState l).1 k = keyWinner l k) ∧
    (∀ k, (dedupState l).2.filter (fun x => decide (eventKey x = k)) =
      (keyWinner l k).toList) := by
  induction l using List.reverseRecOn with
  | nil =>
    refine ⟨?_, ?_, ?_⟩
    · intro p hp
      simp [dedupState] at hp
    · intro k
      rfl
    · intro k
      rfl
  | append_singleton l e ih =>
    obtain ⟨ih0, ih1, ih2⟩ := ih
    cases hlk : lookupKey (dedupState l).1 (eventKey e) with
    | none =>
      have hw : keyWinner l (eventKey e) = none := (ih1 _).symm.trans hlk
      rw [dedupState_append]
      rw [dedupStep_none _ _ hlk]
      refine ⟨?_, ?_, ?_⟩
      · intro p hp
        rcases List.mem_append.mp hp with hp | hp
        · exact ih0 p hp
        · rw [List.mem_singleton.mp hp]
      · intro k
        rw [lookupKey_append, keyWinner_append]
        by_cases hk : eventKey e = k
        · subst hk
          rw [ih1, hw]
          dsimp only
          rw [lookupKey, if_pos rfl, if_pos rfl]
        · rw [if_neg hk, ← ih1]
          cases hsk : lookupKey (dedupState l).1 k
          · dsimp only
            rw [lookupKey, if_neg hk]
            rfl
          · rfl
      · intro k
        rw [List.filter_append, keyWinner_append]
        by_cases hk : eventKey e = k
        · subst hk
          rw [ih2, hw]
          simp
        · rw [if_neg hk, ih2]
          have : (List.filter (fun x => decide (eventKey x = k)) [e]) = [] := by
            simp [hk]
          rw [this, List.append_nil]
    | some ex =>
      have hkey_ex : eventKey ex = eventKey e := ih0 _ (lookupKey_mem _ _ _ hlk)
      have hw : keyWinner l (eventKey e) = some ex := (ih1 _).symm.trans hlk
      by_cases hcomp : _event_completeness e > _event_completeness ex
      · rw [dedupState_append, dedupStep_some_gt _ _ _ hlk hcomp]
        refine ⟨?_, ?_, ?_⟩
        · intro p hp
          rcases updateKey_mem _ _ _ _ hp with hp | hp
          · rw [hp]
          · exact ih0 p hp
        · intro k
          rw [lookupKey_update _ _ _ _ (by rw [hlk]; rfl), keyWinner_append]
          by_cases hk : eventKey e = k
          · subst hk
            rw [if_pos rfl, if_pos rfl, hw]
            dsimp only
            rw [if_pos hcomp]
          · rw [if_neg hk, if_neg hk, ih1]
        · intro k
          rw [List.filter_append, keyWinner_append]
          by_cases hk : eventKey e = k
          · subst hk
            have hsing : (dedupState l).2.filter (fun x => decide (eventKey x = eventKey e)) =
                [ex] := by
              rw [ih2, hw]
              rfl
            rw [filter_eraseFirst_of_singleton _ _ _ hsing]
            rw [if_pos rfl, hw]
            dsimp only
            rw [if_pos hcomp]
            simp
          · have hpex : (fun x => decide (eventKey x = k)) ex = false := by
              simp only [decide_eq_false_iff_not]
              rw [hkey_ex]
              exact hk
            rw [filter_eraseFirst_of_pred_false _ _ _ hpex, ih2]
            rw [if_neg hk]
            have : (List.filter (fun x => decide (eventKey x = k)) [e]) = [] := by
              simp [hk]
            rw [this, List.append_nil]
      · rw [dedupState_append, dedupStep_some_le _ _ _ hlk hcomp]
        refine ⟨ih0, ?_, ?_⟩
        · intro k
          rw [keyWinner_append]
          by_cases hk : eventKey e = k
          · subst hk
            rw [if_pos rfl, hw, hlk]
            dsimp only
            rw [if_neg hcomp]
          · rw [if_neg hk, ih1]
        · intro k
          rw [keyWinner_append]
          by_cases hk : eventKey e = k
          · subst hk
            rw [if_pos rfl, hw, ih2, hw]
            dsimp only
            rw [if_neg hcomp]
          · rw [if_neg hk, ih2]

theorem dedup_filter_key (l : List Event) (k : EventKey) :
    (deduplicate_events l).filter (fun x => decide (eventKey x = k)) =
      (keyWinner l k).toList :=
  (dedup_invariant l).2.2 k

/-- C1: deduplicate_events groups events by the key (normalized name,
ISO-formatted start date): for every key, the kept events with that key are
exactly the one winner computed by keeping the first event seen for the key
and replacing it by a later event with the same key iff that event's
completeness score is strictly greater (on ties the first-seen event stays). -/
theorem C1_dedup_keeps_exactly_key_winners (events : List Event) (k : EventKey) :
    (deduplicate_events events).filter (fun x => decide (eventKey x = k)) =
      (keyWinner events k).toList :=
  dedup_filter_key events k

theorem keyWinner_key (l : List Event) (k : EventKey) :
    ∀ w, keyWinner l k = some w → eventKey w = k := by
  induction l using List.reverseRecOn with
  | nil => exact fun w h => absurd h (by simp [keyWinner])
  | append_singleton l e ih =>
    intro w h
    rw [keyWinner_append] at h
    by_cases hk : eventKey e = k
    · rw [if_pos hk] at h
      cases hw : keyWinner l k with
      | none =>
        rw [hw] at h
        dsimp only at h
        rw [Option.some.injEq] at h
        rw [← h]
        exact hk
      | some w0 =>
        rw [hw] at h
        dsimp only at h
        by_cases hc : _event_completeness e > _event_completeness w0
        · rw [if_pos hc, Option.some.injEq] at h
          rw [← h]
          exact hk
        · rw [if_neg hc, Option.some.injEq] at h
          rw [← h]
          exact ih w0 hw
    · rw [if_neg hk] at h
      exact ih w h

theorem keyWinner_filter (l : List Event) (k : EventKey) :
    keyWinner l k = keyWinner (l.filter fun x => decide (eventKey x = k)) k := by
  induction l using List.reverseRecOn with
  | nil => rfl
  | append_singleton l e ih =>
    rw [List.filter_append, keyWinner_append]
    by_cases hk : eventKey e = k
    · have hf : (List.filter (fun x => decide (eventKey x = k)) [e]) = [e] := by
        simp [hk]
      rw [if_pos hk, hf, keyWinner_append, if_pos hk, ih]
    · have hf : (List.filter (fun x => decide (eventKey x = k)) [e]) = [] := by
        simp [hk]
      rw [if_neg hk, hf, List.append_nil, ih]

theorem keyWinner_comp_le (l : List Event) (e : Event) (h : e ∈ l) :
    ∃ w, keyWinner l (eventKey e) = some w ∧
      _event_completeness e ≤ _event_completeness w := by
  induction l using List.reverseRecOn with
  | nil => simp at h
  | append_singleton l a ih =>
    rw [keyWinner_append]
    rcases List.mem_append.mp h with hmem | hmem
    · obtain ⟨w, hw, hle⟩ := ih hmem
      by_cases hk : eventKey a = eventKey e
      · rw [if_pos hk, hw]
        dsimp only
        by_cases hc : _event_completeness a > _event_completeness w
        · exact ⟨a, by rw [if_pos hc], le_trans hle (le_of_lt hc)⟩
        · exact ⟨w, by rw [if_neg hc], hle⟩
      · exact ⟨w, by rw [if_neg hk]; exact hw, hle⟩
    · rw [List.mem_singleton.mp hmem]
      rw [if_pos rfl]
      cases hw : keyWinner l (eventKey a) with
      | none => exact ⟨a, rfl, le_refl _⟩
      | some w =>
        dsimp only
        by_cases hc : _event_completeness a > _event_completeness w
        · exact ⟨a, by rw [if_pos hc], le_refl _⟩
        · exact ⟨w, by rw [if_neg hc], le_of_not_lt hc⟩

theorem foldl_dedupStep_fresh (m : List Event) :
    ∀ S U, (∀ e ∈ m, lookupKey S (eventKey e) = none) →
      m.Pairwise (fun a b => eventKey a ≠ eventKey b) →
      m.foldl dedupStep (S, U) =
        (S ++ m.map (fun e => (eventKey e, e)), U ++ m) := by
  induction m with
  | nil =>
    intro S U _ _
    simp
  | cons e t ih =>
    intro S U hfresh hpw
    rw [List.foldl_cons, dedupStep_none _ _ (hfresh e (List.mem_cons_self _ _))]
    have hpw' := List.pairwise_cons.mp hpw
    have hfresh' : ∀ x ∈ t, lookupKey (S ++ [(eventKey e, e)]) (eventKey x) = none := by
      intro x hx
      rw [lookupKey_append, hfresh x (List.mem_cons_of_mem _ hx)]
      dsimp only
      rw [lookupKey, if_neg (hpw'.1 x hx), lookupKey]
    rw [ih _ _ hfresh' hpw'.2]
    simp

theorem foldl_dedupStep_noop (m : List Event) :
    ∀ S U, (∀ x ∈ m, ∃ w, lookupKey S (eventKey x) = some w ∧
        ¬ _event_completeness x > _event_completeness w) →
      m.foldl dedupStep (S, U) = (S, U) := by
  induction m with
  | nil =>
    intro S U _
    rfl
  | cons e t ih =>
    intro S U h
    obtain ⟨w, hw, hc⟩ := h e (List.mem_cons_self _ _)
    rw [List.foldl_cons, dedupStep_some_le _ _ _ hw hc]
    exact ih _ _ fun x hx => h x (List.mem_cons_of_mem _ hx)

theorem lookup_assoc_map (m : List Event) (k : EventKey) :
    lookupKey (m.map fun e => (eventKey e, e)) k =
      (m.filter fun x => decide (eventKey x = k)).head? := by
  induction m with
  | nil => rfl
  | cons e t ih =>
    rw [List.map_cons, List.filter_cons]
    by_cases hk : eventKey e = k
    · rw [lookupKey, if_pos hk]
      simp [hk]
    · rw [lookupKey, if_neg hk, ih]
      simp [hk]

theorem pairwise_key_of_filter_le_one (m : List Event)
    (h : ∀ k, (m.filter fun x => decide (eventKey x = k)).length ≤ 1) :
    m.Pairwise (fun a b => eventKey a ≠ eventKey b) := by
  induction m with
  | nil => exact List.Pairwise.nil
  | cons u t ih =>
    refine List.pairwise_cons.mpr ⟨?_, ?_⟩
    · intro b hb heq
      have h1 := h (eventKey u)
      rw [List.filter_cons] at h1
      simp only [decide_eq_true_eq] at h1
      rw [if_pos (by simp)] at h1
      have hbmem : b ∈ t.filter fun x => decide (eventKey x = eventKey u) :=
        List.mem_filter.mpr ⟨hb, by simp [heq]⟩
      have : (t.filter fun x => decide (eventKey x = eventKey u)).length = 0 := by
        simp only [List.length_cons] at h1
        omega
      rw [List.length_eq_zero] at this
      rw [this] at hbmem
      simp at hbmem
    · refine ih fun k => ?_
      have h1 := h k
      rw [List.filter_cons] at h1
      by_cases hk : decide (eventKey u = k) = true
      · rw [if_pos hk] at h1
        simp only [List.length_cons] at h1
        omega
      · rwa [if_neg hk] at h1

theorem dedup_pairwise_keys (l : List Event) :
    (deduplicate_events l).Pairwise (fun a b => eventKey a ≠ eventKey b) := by
  refine pairwise_key_of_filter_le_one _ fun k => ?_
  rw [dedup_filter_key l k]
  cases keyWinner l k <;> simp

theorem keyWinner_dedup (l : List Event) (k : EventKey) :
    keyWinner (deduplicate_events l) k = keyWinner l k := by
  rw [keyWinner_filter, dedup_filter_key l k]
  cases hw : keyWinner l k with
  | none => rfl
  | some w =>
    have hk := keyWinner_key l k w hw
    show keyWinner [w] k = some w
    unfold keyWinner
    rw [List.foldl_cons, List.foldl_nil, if_pos hk]

/-- C2: EventStore.merge is idempotent: merging the same event list a second
time leaves the persisted collection exactly as after the first merge (in
particular the collection does not grow). -/
theorem C2_merge_idempotent (stored X : List Event) :
    EventStore.merge (EventStore.merge stored X) X = EventStore.merge stored X := by
  unfold EventStore.merge
  show deduplicate_events (deduplicate_events (stored ++ X) ++ X) =
    deduplicate_events (stored ++ X)
  have hD := dedup_pairwise_keys (stored ++ X)
  have hfresh := foldl_dedupStep_fresh (deduplicate_events (stored ++ X)) [] []
    (fun e _ => rfl) hD
  have hnoop : ∀ x ∈ X,
      ∃ w, lookupKey ((deduplicate_events (stored ++ X)).map fun e => (eventKey e, e))
          (eventKey x) = some w ∧
        ¬ _event_completeness x > _event_completeness w := by
    intro x hx
    obtain ⟨w, hw, hle⟩ := keyWinner_comp_le (stored ++ X) x
      (List.mem_append.mpr (Or.inr hx))
    refine ⟨w, ?_, not_lt_of_le hle⟩
    rw [lookup_assoc_map, dedup_filter_key (stored ++ X) (eventKey x), hw]
    rfl
  show (dedupState (deduplicate_events (stored ++ X) ++ X)).2 = _
  unfold dedupState
  rw [List.foldl_append]
  have h1 : List.foldl dedupStep ([], []) (deduplicate_events (stored ++ X)) =
      ((deduplicate_events (stored ++ X)).map fun e => (eventKey e, e),
        deduplicate_events (stored ++ X)) := by
    rw [hfresh]
    simp
  rw [h1, foldl_dedupStep_noop X _ _ hnoop]

theorem skipWs_cons_ws (c : Char) (cs : List Char) (h : isSpc c = true) :
    skipWs (c :: cs) = skipWs cs := by
  simp [skipWs, List.dropWhile_cons, h]

theorem skipWs_cons_nonws (c : Char) (cs : List Char) (h : isSpc c = false) :
    skipWs (c :: cs) = c :: cs := by
  simp [skipWs, List.dropWhile_cons, h]

theorem skipWs_length (l : List Char) : (skipWs l).length ≤ l.length := by
  induction l with
  | nil => exact Nat.le_refl _
  | cons c cs ih =>
    by_cases hc : isSpc c = true
    · rw [skipWs_cons_ws c cs hc]
      exact Nat.le_succ_of_le ih
    · rw [skipWs_cons_nonws c cs (bool_eq_false_of_not _ hc)]

theorem skipWs_append_ws (w t : List Char) (h : ∀ c ∈ w, isSpc c = true) :
    skipWs (w ++ t) = skipWs t := by
  induction w with
  | nil => rfl
  | cons x xs ih =>
    rw [List.cons_append, skipWs_cons_ws x _ (h x (List.mem_cons_self _ _))]
    exact ih fun c hc => h c (List.mem_cons_of_mem _ hc)

theorem stripPfx_length : ∀ (p l r : List Char), stripPfx p l = some r →
    r.length + p.length = l.length := by
  intro p
  induction p with
  | nil =>
    intro l r h
    rw [stripPfx, Option.some.injEq] at h
    subst h
    simp
  | cons x xs ih =>
    intro l r h
    cases l with
    | nil => exact absurd h (by simp [stripPfx])
    | cons c cs =>
      rw [stripPfx] at h
      by_cases hx : (x == c) = true
      · rw [if_pos hx] at h
        have := ih cs r h
        simp only [List.length_cons]
        omega
      · rw [if_neg hx] at h
        exact absurd h (by simp)

theorem matchYear_length (l r : List Char) (h : matchYear l = some r) :
    r.length + 4 = l.length := by
  unfold matchYear at h
  split at h
  · split at h
    · rw [Option.some.injEq] at h
      subst h
      simp only [List.length_cons]
      try omega
    · exact absurd h (by simp)
  · exact absurd h (by simp)

theorem matchAlt_length (l r : List Char) (h : matchAlt l = some r) :
    r.length + 4 ≤ l.length := by
  have hconference : ("conference".toList).length = 10 := by decide
  have hconf : ("conf".toList).length = 4 := by decide
  have hsummit : ("summit".toList).length = 6 := by decide
  have hmeetup : ("meetup".toList).length = 6 := by decide
  unfold matchAlt at h
  split at h
  · rename_i r0 hy
    rw [Option.some.injEq] at h
    subst h
    have := matchYear_length l r0 hy
    omega
  · split at h
    · rename_i r0 hp
      rw [Option.some.injEq] at h
      subst h
      have := stripPfx_length _ _ _ hp
      omega
    · split at h
      · rename_i r0 hp
        rw [Option.some.injEq] at h
        subst h
        have := stripPfx_length _ _ _ hp
        omega
      · split at h
        · rename_i r0 hp
          rw [Option.some.injEq] at h
          subst h
          have := stripPfx_length _ _ _ hp
          omega
        · have := stripPfx_length _ _ _ h
          omega

theorem matchAlt_cons_spc (c : Char) (cs : List Char) (h : isSpc c = true) :
    matchAlt (c :: cs) = none := by
  simp only [isSpc, Bool.or_eq_true, beq_iff_eq] at h
  rcases h with ((((rfl | rfl) | rfl) | rfl) | rfl) | rfl <;> rfl

theorem substFullAux_succ_cons (n : Nat) (c : Char) (cs : List Char) :
    substFullAux (n + 1) (c :: cs) =
      match matchAlt (skipWs (c :: cs)) with
      | some rest => ' ' :: substFullAux n (skipWs rest)
      | none => c :: substFullAux n cs := rfl

theorem substPlainAux_succ_cons (n : Nat) (c : Char) (cs : List Char) :
    substPlainAux (n + 1) (c :: cs) =
      match matchAlt (c :: cs) with
      | some rest => ' ' :: substPlainAux n rest
      | none => c :: substPlainAux n cs := rfl

theorem substFullAux_congr : ∀ (n m : Nat) (l : List Char), l.length ≤ n →
    l.length ≤ m → substFullAux n l = substFullAux m l := by
  intro n
  induction n with
  | zero =>
    intro m l hn _
    have hl : l = [] := List.length_eq_zero.mp (Nat.le_zero.mp hn)
    subst hl
    cases m <;> rfl
  | succ n ih =>
    intro m l hn hm
    cases l with
    | nil => cases m <;> rfl
    | cons c cs =>
      cases m with
      | zero => simp at hm
      | succ m' =>
        rw [substFullAux_succ_cons, substFullAux_succ_cons]
        cases hma : matchAlt (skipWs (c :: cs)) with
        | some rest =>
          dsimp only
          have h1 := matchAlt_length _ _ hma
          have h2 := skipWs_length (c :: cs)
          have h3 := skipWs_length rest
          simp only [List.length_cons] at hn hm h2
          refine congrArg _ (ih m' (skipWs rest) (by omega) (by omega))
        | none =>
          dsimp only
          simp only [List.length_cons] at hn hm
          exact congrArg _ (ih m' cs (by omega) (by omega))

theorem substPlainAux_congr : ∀ (n m : Nat) (l : List Char), l.length ≤ n →
    l.length ≤ m → substPlainAux n l = substPlainAux m l := by
  intro n
  induction n with
  | zero =>
    intro m l hn _
    have hl : l = [] := List.length_eq_zero.mp (Nat.le_zero.mp hn)
    subst hl
    cases m <;> rfl
  | succ n ih =>
    intro m l hn hm
    cases l with
    | nil => cases m <;> rfl
    | cons c cs =>
      cases m with
      | zero => simp at hm
      | succ m' =>
        rw [substPlainAux_succ_cons, substPlainAux_succ_cons]
        cases hma : matchAlt (c :: cs) with
        | some rest =>
          dsimp only
          have h1 := matchAlt_length _ _ hma
          simp only [List.length_cons] at hn hm h1
          refine congrArg _ (ih m' rest (by omega) (by omega))
        | none =>
          dsimp only
          simp only [List.length_cons] at hn hm
          exact congrArg _ (ih m' cs (by omega) (by omega))

theorem substFull_cons (c : Char) (cs : List Char) :
    substFull (c :: cs) =
      match matchAlt (skipWs (c :: cs)) with
      | some rest => ' ' :: substFull (skipWs rest)
      | none => c :: substFull cs := by
  show substFullAux (cs.length + 1) (c :: cs) = _
  rw [substFullAux_succ_cons]
  cases hma : matchAlt (skipWs (c :: cs)) with
  | some rest =>
    dsimp only
    have h1 := matchAlt_length _ _ hma
    have h2 := skipWs_length (c :: cs)
    have h3 := skipWs_length rest
    simp only [List.length_cons] at h2
    exact congrArg _ (substFullAux_congr cs.length (skipWs rest).length (skipWs rest)
      (by omega) (Nat.le_refl _))
  | none => rfl

theorem substPlain_cons (c : Char) (cs : List Char) :
    substPlain (c :: cs) =
      match matchAlt (c :: cs) with
      | some rest => ' ' :: substPlain rest
      | none => c :: substPlain cs := by
  show substPlainAux (cs.length + 1) (c :: cs) = _
  rw [substPlainAux_succ_cons]
  cases hma : matchAlt (c :: cs) with
  | some rest =>
    dsimp only
    have h1 := matchAlt_length _ _ hma
    simp only [List.length_cons] at h1
    exact congrArg _ (substPlainAux_congr cs.length rest.length rest
      (by omega) (Nat.le_refl _))
  | none => rfl

theorem substPlain_ws_append (w t : List Char) (h : ∀ c ∈ w, isSpc c = true) :
    substPlain (w ++ t) = w ++ substPlain t := by
  induction w with
  | nil => rfl
  | cons x xs ih =>
    rw [List.cons_append, substPlain_cons,
      matchAlt_cons_spc x _ (h x (List.mem_cons_self _ _))]
    dsimp only
    rw [ih fun c hc => h c (List.mem_cons_of_mem _ hc)]
    rfl

theorem skipWs_substPlain (X : List Char) :
    skipWs (substPlain X) = skipWs (substPlain (skipWs X)) := by
  conv_lhs => rw [← List.takeWhile_append_dropWhile isSpc X]
  rw [substPlain_ws_append _ _ fun c hc => List.mem_takeWhile_imp hc]
  rw [skipWs_append_ws _ _ fun c hc => List.mem_takeWhile_imp hc]
  rfl

theorem nf_cons_ws_aux : ∀ (cs : List Char) (c : Char), isSpc c = true →
    nf (c :: cs) = ' ' :: nf (skipWs cs) := by
  intro cs
  induction cs with
  | nil =>
    intro c h
    simp [nf, h, skipWs]
  | cons d ds ih =>
    intro c h
    by_cases hd : isSpc d = true
    · have h1 : nf (c :: d :: ds) = nf (d :: ds) := by
        simp [nf, h, hd]
      rw [h1, ih d hd, skipWs_cons_ws d ds hd]
    · have hd' := bool_eq_false_of_not _ hd
      have h1 : nf (c :: d :: ds) = ' ' :: nf (d :: ds) := by
        simp [nf, h, hd']
      rw [h1, skipWs_cons_nonws d ds hd']

theorem nf_cons_ws (c : Char) (cs : List Char) (h : isSpc c = true) :
    nf (c :: cs) = ' ' :: nf (skipWs cs) :=
  nf_cons_ws_aux cs c h

theorem nf_cons_nonws (c : Char) (cs : List Char) (h : isSpc c = false) :
    nf (c :: cs) = c :: nf cs := by
  cases cs with
  | nil => simp [nf, h]
  | cons d ds => simp [nf, h]

theorem beq_space_false_of_nonws (c : Char) (h : isSpc c = false) : (c == ' ') = false := by
  cases hcc : c == ' '
  · rfl
  · exfalso
    have hspc : isSpc c = true := by
      simp [isSpc, hcc]
    rw [hspc] at h
    cases h

theorem nf_skipWs (a : List Char) : nf (skipWs a) = skipLeadBlank (nf a) := by
  cases a with
  | nil => rfl
  | cons c cs =>
    by_cases hc : isSpc c = true
    · rw [skipWs_cons_ws c cs hc, nf_cons_ws c cs hc]
      simp [skipLeadBlank]
    · have hc' := bool_eq_false_of_not _ hc
      rw [skipWs_cons_nonws c cs hc', nf_cons_nonws c cs hc']
      simp [skipLeadBlank, beq_space_false_of_nonws c hc']

theorem nf_skipWs_congr (a b : List Char) (h : nf a = nf b) :
    nf (skipWs a) = nf (skipWs b) := by
  rw [nf_skipWs, nf_skipWs, h]

theorem isSpc_space : isSpc ' ' = true := rfl

theorem subst_equiv : ∀ (N : Nat) (l : List Char), l.length ≤ N →
    nf (substFull l) = nf (substPlain l) := by
  intro N
  induction N with
  | zero =>
    intro l hl
    have hnil : l = [] := List.length_eq_zero.mp (Nat.le_zero.mp hl)
    subst hnil
    rfl
  | succ N ih =>
    intro l hl
    cases l with
    | nil => rfl
    | cons c cs =>
      simp only [List.length_cons] at hl
      rw [substFull_cons, substPlain_cons]
      by_cases hc : isSpc c = true
      · rw [matchAlt_cons_spc c cs hc, skipWs_cons_ws c cs hc]
        cases hma : matchAlt (skipWs cs) with
        | none =>
          dsimp only
          rw [nf_cons_ws c _ hc, nf_cons_ws c _ hc]
          exact congrArg _ (nf_skipWs_congr _ _ (ih cs (by omega)))
        | some rest =>
          dsimp only
          rw [nf_cons_ws ' ' _ isSpc_space, nf_cons_ws c _ hc]
          refine congrArg _ ?_
          have hlen1 := matchAlt_length _ _ hma
          have hlen2 := skipWs_length cs
          have hlen3 := skipWs_length rest
          have hstep : skipWs (substPlain cs) = skipWs (substPlain (skipWs rest)) := by
            rw [skipWs_substPlain cs]
            cases hm : skipWs cs with
            | nil =>
              rw [hm] at hma
              exact absurd hma (by simp [matchAlt, matchYear, stripPfx])
            | cons e es =>
              rw [hm] at hma
              rw [substPlain_cons, hma]
              dsimp only
              rw [skipWs_cons_ws _ _ isSpc_space, skipWs_substPlain rest]
          rw [hstep]
          exact nf_skipWs_congr _ _ (ih (skipWs rest) (by omega))
      · have hc' := bool_eq_false_of_not _ hc
        rw [skipWs_cons_nonws c cs hc']
        cases hma : matchAlt (c :: cs) with
        | none =>
          dsimp only
          rw [nf_cons_nonws c _ hc', nf_cons_nonws c _ hc']
          exact congrArg _ (ih cs (by omega))
        | some rest =>
          dsimp only
          rw [nf_cons_ws ' ' _ isSpc_space, nf_cons_ws ' ' _ isSpc_space]
          refine congrArg _ ?_
          have hlen1 := matchAlt_length _ _ hma
          have hlen3 := skipWs_length rest
          simp only [List.length_cons] at hlen1
          rw [skipWs_substPlain rest]
          exact nf_skipWs_congr _ _ (ih (skipWs rest) (by omega))

theorem pySplitAux_cons (c : Char) (t acc : List Char) :
    pySplitAux (c :: t) acc =
      if isSpc c then
        (if acc.isEmpty then pySplitAux t [] else acc.reverse :: pySplitAux t [])
      else pySplitAux t (c :: acc) := rfl

theorem pySplit_skipWs (x : List Char) : pySplitAux (skipWs x) [] = pySplitAux x [] := by
  induction x with
  | nil => rfl
  | cons c cs ih =>
    by_cases hc : isSpc c = true
    · rw [skipWs_cons_ws c cs hc, ih, pySplitAux_cons, hc]
      rfl
    · rw [skipWs_cons_nonws c cs (bool_eq_false_of_not _ hc)]

theorem nf_pySplit : ∀ (N : Nat) (u : List Char), u.length ≤ N →
    ∀ acc, pySplitAux (nf u) acc = pySplitAux u acc := by
  intro N
  induction N with
  | zero =>
    intro u hu acc
    have hnil : u = [] := List.length_eq_zero.mp (Nat.le_zero.mp hu)
    subst hnil
    rfl
  | succ N ih =>
    intro u hu acc
    cases u with
    | nil => rfl
    | cons c cs =>
      simp only [List.length_cons] at hu
      by_cases hc : isSpc c = true
      · rw [nf_cons_ws c cs hc]
        have hskip := skipWs_length cs
        have h1 : pySplitAux (nf (skipWs cs)) [] = pySplitAux cs [] :=
          (ih (skipWs cs) (by omega) []).trans (pySplit_skipWs cs)
        rw [pySplitAux_cons, pySplitAux_cons, hc, isSpc_space, h1]
        simp
      · have hc' := bool_eq_false_of_not _ hc
        rw [nf_cons_nonws c cs hc', pySplitAux_cons, pySplitAux_cons, hc']
        simp only [Bool.false_eq_true, if_false]
        exact ih cs (by omega) (c :: acc)

theorem stripPunct_cons_keep (c : Char) (t : List Char)
    (h : (isWordChar c || isSpc c) = true) :
    stripPunct (c :: t) = c :: stripPunct t := by
  simp [stripPunct, List.filter_cons, h]

theorem stripPunct_cons_drop (c : Char) (t : List Char)
    (h : (isWordChar c || isSpc c) = false) :
    stripPunct (c :: t) = stripPunct t := by
  simp [stripPunct, List.filter_cons, h]

theorem skipLeadBlank_blank (t : List Char) : skipLeadBlank (' ' :: t) = t := by
  simp [skipLeadBlank]

theorem skipLeadBlank_nonblank (c : Char) (t : List Char) (h : (c == ' ') = false) :
    skipLeadBlank (c :: t) = c :: t := by
  simp [skipLeadBlank, h]

theorem nf_strip_nf : ∀ (N : Nat) (u : List Char), u.length ≤ N →
    nf (stripPunct u) = nf (stripPunct (nf u)) := by
  intro N
  induction N with
  | zero =>
    intro u hu
    have hnil : u = [] := List.length_eq_zero.mp (Nat.le_zero.mp hu)
    subst hnil
    rfl
  | succ N ih =>
    intro u hu
    cases u with
    | nil => rfl
    | cons c cs =>
      simp only [List.length_cons] at hu
      have hkeepSp : (isWordChar ' ' || isSpc ' ') = true := rfl
      by_cases hc : isSpc c = true
      · have hkeep : (isWordChar c || isSpc c) = true := by
          rw [hc, Bool.or_true]
        rw [stripPunct_cons_keep c cs hkeep, nf_cons_ws c _ hc,
          nf_skipWs (stripPunct cs), nf_cons_ws c cs hc,
          stripPunct_cons_keep ' ' _ hkeepSp, nf_cons_ws ' ' _ isSpc_space,
          nf_skipWs (stripPunct (nf (skipWs cs)))]
        refine congrArg _ ?_
        rw [ih cs (by omega), nf_skipWs cs]
        cases hnfcs : nf cs with
        | nil => rfl
        | cons hchar t =>
          by_cases hsp : (hchar == ' ') = true
          · have hbl : hchar = ' ' := beq_iff_eq.mp hsp
            subst hbl
            rw [skipLeadBlank_blank t, stripPunct_cons_keep ' ' t hkeepSp,
              nf_cons_ws ' ' _ isSpc_space, skipLeadBlank_blank,
              nf_skipWs (stripPunct t)]
          · rw [skipLeadBlank_nonblank hchar t (bool_eq_false_of_not _ hsp)]
      · have hc' := bool_eq_false_of_not _ hc
        rw [nf_cons_nonws c cs hc']
        by_cases hw : isWordChar c = true
        · have hkeep : (isWordChar c || isSpc c) = true := by
            rw [hw, Bool.true_or]
          rw [stripPunct_cons_keep c cs hkeep, stripPunct_cons_keep c _ hkeep,
            nf_cons_nonws c _ hc', nf_cons_nonws c _ hc']
          exact congrArg _ (ih cs (by omega))
        · have hkeep : (isWordChar c || isSpc c) = false := by
            rw [bool_eq_false_of_not _ hw, hc', Bool.or_self]
          rw [stripPunct_cons_drop c cs hkeep, stripPunct_cons_drop c _ hkeep]
          exact ih cs (by omega)

theorem collapse_strip_congr (u v : List Char) (h : nf u = nf v) :
    collapseWs (stripPunct u) = collapseWs (stripPunct v) := by
  unfold collapseWs pySplit
  refine congrArg _ ?_
  calc pySplitAux (stripPunct u) []
      = pySplitAux (nf (stripPunct u)) [] :=
        (nf_pySplit (stripPunct u).length _ (Nat.le_refl _) []).symm
    _ = pySplitAux (nf (stripPunct (nf u))) [] := by
        rw [nf_strip_nf u.length u (Nat.le_refl _)]
    _ = pySplitAux (nf (stripPunct (nf v))) [] := by rw [h]
    _ = pySplitAux (nf (stripPunct v)) [] := by
        rw [← nf_strip_nf v.length v (Nat.le_refl _)]
    _ = pySplitAux (stripPunct v) [] :=
        nf_pySplit (stripPunct v).length _ (Nat.le_refl _) []

/-- C5 amended: _normalize_name lowercases, strips every leftmost occurrence
of a four-digit 20xx year or of conference/conf/summit/meetup - earlier
alternatives preferred, ALSO when the occurrence sits inside a longer word -
replacing it (with its adjacent whitespace) by a space, then strips
punctuation and collapses internal whitespace; equivalently, it equals the
pipeline that replaces each such occurrence by a single space without
whitespace absorption. -/
theorem C5_amended_normalize_strips_substrings (name : String) :
    _normalize_name name = normalize_spec_amended name := by
  unfold _normalize_name normalize_spec_amended
  refine congrArg String.mk ?_
  exact collapse_strip_congr _ _
    (subst_equiv (pyLower name.toList).length _ (Nat.le_refl _))

/-- Counterexample for C5 as stated: the word "confluence" merely contains
"conf", yet _normalize_name strips the embedded occurrence and returns
"luence" instead of leaving the word intact. -/
theorem C5_counterexample_confluence :
    _normalize_name "confluence" = "luence" ∧ ("luence" : String) ≠ "confluence" :=
  ⟨by decide, by decide⟩

end CfpRadar
